import Mathlib

/-!
Shallow embedding of the Progression & Economy Engine of the
solar-k2-bootstrapper repository (a browser incremental game), together
with theorems settling the frozen claims about its specification.

Quantities are modelled as exact rationals (the source uses JS doubles,
but every claim here is about exact arithmetic identities well inside the
double range).  JS objects holding per-kind quantities are modelled as a
three-field record (`Resources`); cost bundles, which the source iterates
with `Object.entries`, are modelled as association lists whose keys are
distinct (a structural fact of JS objects).
-/

/-- Resource kinds of the game economy (`energy`, `materials`, `research`). -/
inductive RKind where
  | energy
  | materials
  | research
deriving DecidableEq, Repr

/-- The resource ledger: one rational quantity per kind
(`StateManager.state.resources`). -/
structure Resources where
  energy : ℚ
  materials : ℚ
  research : ℚ
deriving DecidableEq, Repr

namespace Resources

/-- Read the balance of one kind (`state.resources[type] || 0`). -/
def get (r : Resources) : RKind → ℚ
  | .energy => r.energy
  | .materials => r.materials
  | .research => r.research

/-- Write the balance of one kind (`state.resources[type] = v`). -/
def set (r : Resources) : RKind → ℚ → Resources
  | .energy, v => { r with energy := v }
  | .materials, v => { r with materials := v }
  | .research, v => { r with research := v }

theorem get_set_self (r : Resources) (k : RKind) (v : ℚ) :
    (r.set k v).get k = v := by
  cases k <;> rfl

theorem get_set_ne (r : Resources) (k k' : RKind) (v : ℚ) (h : k ≠ k') :
    (r.set k v).get k' = r.get k' := by
  cases k <;> cases k' <;> first | rfl | exact absurd rfl h

theorem ext_get {r r' : Resources} (h : ∀ k, r.get k = r'.get k) : r = r' := by
  cases r; cases r'
  have he := h .energy
  have hm := h .materials
  have hr := h .research
  simp [get] at he hm hr
  simp [he, hm, hr]

end Resources

/-- Embedding of `StateManager.addResource`: unconditionally credits the
exact (possibly fractional) amount. -/
def addResource (r : Resources) (k : RKind) (amount : ℚ) : Resources :=
  r.set k (r.get k + amount)

/-- Embedding of `StateManager.spendResource`: rejects when the balance is
below the amount, otherwise deducts; returns the success flag with the
(possibly unchanged) ledger. -/
def spendResource (r : Resources) (k : RKind) (amount : ℚ) : Bool × Resources :=
  if r.get k < amount then (false, r)
  else (true, r.set k (r.get k - amount))

/-- Embedding of `StateManager.canAfford`: every entry of the cost bundle
must be covered by the current balance of its kind. -/
def canAfford (r : Resources) (costs : List (RKind × ℚ)) : Bool :=
  costs.all fun e => decide (e.2 ≤ r.get e.1)

/-- Embedding of `ResourceSystem.spend`: deducts the entries of the bundle
in order through `spendResource`, stopping (without rollback) at the first
entry whose kind has an insufficient balance. -/
def spend (r : Resources) : List (RKind × ℚ) → Bool × Resources
  | [] => (true, r)
  | e :: rest =>
    let s := spendResource r e.1 e.2
    if s.1 then spend s.2 rest else (false, s.2)

/-- Deduct every entry of a bundle unconditionally (the intended effect of
a fully successful `spend`). -/
def deductAll (r : Resources) : List (RKind × ℚ) → Resources
  | [] => r
  | e :: rest => deductAll (r.set e.1 (r.get e.1 - e.2)) rest

/-- Total amount a bundle lists against one kind. -/
def amountOf (costs : List (RKind × ℚ)) (k : RKind) : ℚ :=
  ((costs.filter fun e => e.1 = k).map Prod.snd).sum

theorem amountOf_nil (k : RKind) : amountOf [] k = 0 := rfl

theorem amountOf_cons (e : RKind × ℚ) (rest : List (RKind × ℚ)) (k : RKind) :
    amountOf (e :: rest) k =
      (if e.1 = k then e.2 else 0) + amountOf rest k := by
  by_cases h : e.1 = k <;> simp [amountOf, List.filter_cons, h]

theorem deductAll_get (r : Resources) (costs : List (RKind × ℚ)) (k : RKind)
    (hnd : (costs.map Prod.fst).Nodup) :
    (deductAll r costs).get k = r.get k - amountOf costs k := by
  induction costs generalizing r with
  | nil => simp [deductAll, amountOf]
  | cons e rest ih =>
    simp only [List.map_cons, List.nodup_cons] at hnd
    rw [deductAll, ih _ hnd.2, amountOf_cons]
    by_cases h : e.1 = k
    · subst h
      rw [Resources.get_set_self]
      have : amountOf rest e.1 = 0 := by
        have : (rest.filter fun x => x.1 = e.1) = [] := by
          rw [List.filter_eq_nil_iff]
          intro a ha
          simp only [decide_eq_true_eq]
          intro hk
          exact hnd.1 (hk ▸ List.mem_map_of_mem Prod.fst ha)
        simp [amountOf, this]
      simp [this]
    · rw [Resources.get_set_ne _ _ _ _ h]
      simp [h]

theorem canAfford_cons (r : Resources) (e : RKind × ℚ) (rest : List (RKind × ℚ)) :
    canAfford r (e :: rest) = (decide (e.2 ≤ r.get e.1) && canAfford r rest) := by
  simp [canAfford]

/-- Whenever the whole bundle is affordable and its kinds are distinct,
`spend` succeeds and its effect is the unconditional full deduction. -/
theorem spend_of_canAfford (r : Resources) (costs : List (RKind × ℚ))
    (hnd : (costs.map Prod.fst).Nodup) (h : canAfford r costs = true) :
    spend r costs = (true, deductAll r costs) := by
  induction costs generalizing r with
  | nil => rfl
  | cons e rest ih =>
    simp only [List.map_cons, List.nodup_cons] at hnd
    rw [canAfford_cons, Bool.and_eq_true, decide_eq_true_eq] at h
    have hok : ¬ r.get e.1 < e.2 := not_lt.mpr h.1
    have hafford : canAfford (r.set e.1 (r.get e.1 - e.2)) rest = true := by
      simp only [canAfford, List.all_eq_true] at h ⊢
      intro a ha
      have hne : e.1 ≠ a.1 := fun hk => hnd.1 (hk ▸ List.mem_map_of_mem Prod.fst ha)
      rw [Resources.get_set_ne _ _ _ _ hne]
      exact h.2 a ha
    simp only [spend, spendResource, if_neg hok, if_pos]
    rw [ih _ hnd.2 hafford]
    rfl

/-- The balances `spend` leaves behind when the whole bundle is affordable:
every listed kind loses exactly its listed amount, every other kind is
untouched. -/
theorem spend_get_of_canAfford (r : Resources) (costs : List (RKind × ℚ))
    (hnd : (costs.map Prod.fst).Nodup) (h : canAfford r costs = true) (k : RKind) :
    (spend r costs).2.get k = r.get k - amountOf costs k := by
  rw [spend_of_canAfford r costs hnd h]
  exact deductAll_get r costs k hnd

theorem spend_cons_insufficient (r : Resources) (e : RKind × ℚ)
    (rest : List (RKind × ℚ)) (h : r.get e.1 < e.2) :
    spend r (e :: rest) = (false, r) := by
  simp [spend, spendResource, h]

theorem spend_cons_sufficient (r : Resources) (e : RKind × ℚ)
    (rest : List (RKind × ℚ)) (h : ¬ r.get e.1 < e.2) :
    spend r (e :: rest) = spend (r.set e.1 (r.get e.1 - e.2)) rest := by
  simp [spend, spendResource, h]

theorem canAfford_set_not_mem (r : Resources) (k : RKind) (v : ℚ)
    (costs : List (RKind × ℚ)) (h : k ∉ costs.map Prod.fst) :
    canAfford (r.set k v) costs = canAfford r costs := by
  induction costs with
  | nil => rfl
  | cons e rest ih =>
    simp only [List.map_cons, List.mem_cons, not_or] at h
    rw [canAfford_cons, canAfford_cons, ih h.2, Resources.get_set_ne r k e.1 v h.1]

/-- Failure characterization of `spend` on a bundle with distinct kinds:
the bundle splits at the first insufficient entry; every entry before it
has already been deducted (no rollback), the rest is untouched. -/
theorem spend_of_not_canAfford (r : Resources) (costs : List (RKind × ℚ))
    (hnd : (costs.map Prod.fst).Nodup) (h : canAfford r costs = false) :
    ∃ pre e post, costs = pre ++ e :: post ∧ canAfford r pre = true ∧
      r.get e.1 < e.2 ∧ spend r costs = (false, deductAll r pre) := by
  induction costs generalizing r with
  | nil => simp [canAfford] at h
  | cons e rest ih =>
    simp only [List.map_cons, List.nodup_cons] at hnd
    rw [canAfford_cons, Bool.and_eq_false_iff] at h
    by_cases hfirst : r.get e.1 < e.2
    · exact ⟨[], e, rest, rfl, rfl, hfirst, spend_cons_insufficient r e rest hfirst⟩
    · have h1 : e.2 ≤ r.get e.1 := not_lt.mp hfirst
      have hrest : canAfford r rest = false := by
        rcases h with h | h
        · exact absurd h1 (by simpa using h)
        · exact h
      have hrest' : canAfford (r.set e.1 (r.get e.1 - e.2)) rest = false := by
        rw [canAfford_set_not_mem r e.1 _ rest hnd.1]
        exact hrest
      obtain ⟨pre, f, post, hsplit, hpre, hlt, hspend⟩ := ih _ hnd.2 hrest'
      have hpre_notmem : e.1 ∉ pre.map Prod.fst := by
        intro hm
        apply hnd.1
        obtain ⟨a, ha, hk⟩ := List.mem_map.mp hm
        rw [hsplit]
        exact hk ▸ List.mem_map_of_mem Prod.fst (List.mem_append_left _ ha)
      refine ⟨e :: pre, f, post, by rw [hsplit]; rfl, ?_, ?_, ?_⟩
      · rw [canAfford_cons, ← canAfford_set_not_mem r e.1 (r.get e.1 - e.2) pre hpre_notmem,
          hpre]
        simp [h1]
      · have hne : e.1 ≠ f.1 := by
          intro hk
          apply hnd.1
          rw [hsplit, hk]
          exact List.mem_map_of_mem Prod.fst (List.mem_append_right _ (List.mem_cons_self _ _))
        rw [← Resources.get_set_ne r e.1 f.1 (r.get e.1 - e.2) hne]
        exact hlt
      · rw [spend_cons_sufficient r e rest hfirst, hspend]
        rfl

/-- Static structure descriptor (an entry of `STRUCTURES` in
`data/structures.js`); presentation-only fields are omitted. -/
structure StructureDef where
  cost : List (RKind × ℚ)
  buildTime : ℚ
  limit : Option ℕ
  requiresTech : String
deriving DecidableEq, Repr

/-- A construction queue entry (`ConstructionSystem.build`'s `queueItem`);
presentation-only fields are omitted. -/
structure QueueItem where
  structureId : String
  buildTime : ℚ
  progress : ℚ
deriving DecidableEq, Repr

/-- The slice of the game state the construction system touches, together
with the system's own fractional auto-build counter. -/
structure CState where
  resources : Resources
  structures : List (String × ℕ)
  queue : List QueueItem
  completedResearch : List String
  autoBuildProgress : ℚ
deriving DecidableEq, Repr

/-- Embedding of `StateManager.getStructureCount`
(`state.structures[id] || 0`). -/
def countOf (l : List (String × ℕ)) (sid : String) : ℕ :=
  match l.find? fun e => e.1 = sid with
  | some e => e.2
  | none => 0

/-- Embedding of `StateManager.addStructure` with the default count 1. -/
def bumpCount : List (String × ℕ) → String → List (String × ℕ)
  | [], sid => [(sid, 1)]
  | e :: rest, sid =>
    if e.1 = sid then (e.1, e.2 + 1) :: rest else e :: bumpCount rest sid

/-- Embedding of `ConstructionSystem.getQueuedCount`. -/
def getQueuedCount (queue : List QueueItem) (sid : String) : ℕ :=
  (queue.filter fun item => item.structureId = sid).length

/-- Rejection reasons returned by `ConstructionSystem.build`. -/
inductive BuildReason where
  | unknown_structure
  | tech_not_unlocked
  | limit_reached
  | cannot_afford
  | queue_full
deriving DecidableEq, Repr

/-- Result record of `ConstructionSystem.build` (`{success, reason}` /
`{success, item}`). -/
structure BuildResult where
  success : Bool
  reason : Option BuildReason
deriving DecidableEq, Repr

/-- Decision `currentCount + queuedCount >= structure.limit` made by
`ConstructionSystem.build` when the structure has a finite limit. -/
def limitBlocked (sd : StructureDef) (cur queued : ℕ) : Bool :=
  match sd.limit with
  | some lim => lim ≤ cur + queued
  | none => false

/-- Embedding of `ConstructionSystem.build`, validating in source order:
structure known, required tech completed, build limit (counting queued
items), affordability, queue capacity; on success the cost is deducted via
`spend` (whose result the source ignores) and the item is appended with
zero progress.  `catalog` stands for the static `STRUCTURES` table and
`maxQueue` for `getMaxQueueSize()`. -/
def build (catalog : String → Option StructureDef) (maxQueue : ℕ)
    (s : CState) (sid : String) : BuildResult × CState :=
  match catalog sid with
  | none => (⟨false, some .unknown_structure⟩, s)
  | some sd =>
    if sd.requiresTech ∈ s.completedResearch then
      if limitBlocked sd (countOf s.structures sid) (getQueuedCount s.queue sid) then
        (⟨false, some .limit_reached⟩, s)
      else
        if canAfford s.resources sd.cost then
          if maxQueue ≤ s.queue.length then
            (⟨false, some .queue_full⟩, s)
          else
            (⟨true, none⟩,
              { s with
                  resources := (spend s.resources sd.cost).2,
                  queue := s.queue ++ [⟨sid, sd.buildTime, 0⟩] })
        else
          (⟨false, some .cannot_afford⟩, s)
    else
      (⟨false, some .tech_not_unlocked⟩, s)

/-- Embedding of `ConstructionSystem.completeConstruction` applied to the
queue head: dequeue and increment the structure count. -/
def completeHead (s : CState) : CState :=
  match s.queue with
  | [] => s
  | item :: rest =>
    { s with queue := rest, structures := bumpCount s.structures item.structureId }

/-- The `while` loop of `ConstructionSystem.applyAutoConstruction`: while
the counter is at least 1 and the queue is non-empty, complete the head
item and decrement the counter. -/
def drainAuto : ℚ → List QueueItem → List (String × ℕ) →
    ℚ × List QueueItem × List (String × ℕ)
  | p, [], counts => (p, [], counts)
  | p, item :: rest, counts =>
    if 1 ≤ p then drainAuto (p - 1) rest (bumpCount counts item.structureId)
    else (p, item :: rest, counts)

/-- Embedding of `ConstructionSystem.applyAutoConstruction`: returns
immediately when the queue is empty or the rate is non-positive; otherwise
accumulates `rate/60 * deltaTime` into the counter and drains. -/
def applyAutoConstruction (rate dt : ℚ) (s : CState) : CState :=
  if s.queue.length = 0 then s
  else if rate ≤ 0 then s
  else
    let d := drainAuto (s.autoBuildProgress + rate / 60 * dt) s.queue s.structures
    { s with autoBuildProgress := d.1, queue := d.2.1, structures := d.2.2 }

/-- Embedding of `ConstructionSystem.update`: with an empty queue only
auto-construction runs; otherwise the head item accrues
`deltaTime * buildSpeed` progress, completes when it reaches its build
time, and auto-construction runs afterwards. -/
def updateConstruction (buildSpeed rate dt : ℚ) (s : CState) : CState :=
  match s.queue with
  | [] => applyAutoConstruction rate dt s
  | item :: rest =>
    let item' : QueueItem := { item with progress := item.progress + dt * buildSpeed }
    let s1 :=
      if item'.buildTime ≤ item'.progress then
        { s with queue := rest, structures := bumpCount s.structures item.structureId }
      else
        { s with queue := item' :: rest }
    applyAutoConstruction rate dt s1

/-- Embedding of `ConstructionSystem.cancel`: refunds each cost entry at
`floor(amount * multiplier)` (multiplier 1 with zero progress, 1/2
otherwise) and removes the item.  Cancelling an out-of-range index fails;
a queue item whose structure id is missing from the catalog would throw in
the source and is unreachable for queues produced by `build`, so it is
mapped to the failure result here. -/
def cancel (catalog : String → Option StructureDef) (s : CState) (index : ℕ) :
    Bool × CState :=
  if h : index < s.queue.length then
    let item := s.queue.get ⟨index, h⟩
    match catalog item.structureId with
    | none => (false, s)
    | some sd =>
      let mult : ℚ := if 0 < item.progress then 1 / 2 else 1
      let res' := sd.cost.foldl
        (fun r e => addResource r e.1 ((⌊e.2 * mult⌋ : ℤ) : ℚ)) s.resources
      (true, { s with resources := res', queue := s.queue.eraseIdx index })
  else (false, s)

/-- The `launch_pad` entry of `STRUCTURES` (cost 50 energy + 100
materials, build time 10 s, limit 5, requires `basic_rocketry`). -/
def launchPad : StructureDef :=
  ⟨[(.energy, 50), (.materials, 100)], 10, some 5, "basic_rocketry"⟩

/-- A one-entry catalog exposing `launch_pad`. -/
def demoCatalog : String → Option StructureDef :=
  fun sid => if sid = "launch_pad" then some launchPad else none

/-- The default construction-relevant state: starting resources
`{energy: 100, materials: 50, research: 0}`, no structures, empty queue,
`basic_rocketry` pre-completed, auto-build counter 0. -/
def defaultCState : CState :=
  ⟨⟨100, 50, 0⟩, [], [], ["basic_rocketry"], 0⟩

/-- Production rates per simulated second, one per kind
(`state.production`). -/
abbrev Production := Resources

/-- The `Math.floor` of the source, as a map on rationals. -/
def floorQ (x : ℚ) : ℚ := ((⌊x⌋ : ℤ) : ℚ)

/-- The offline gains of `IdleAccumulator.calculateOfflineProgress`:
each production rate times the effective seconds, floored. -/
def offlineGains (prod : Production) (effectiveSeconds : ℚ) : Resources :=
  ⟨floorQ (prod.energy * effectiveSeconds),
   floorQ (prod.materials * effectiveSeconds),
   floorQ (prod.research * effectiveSeconds)⟩

/-- Application of the offline gains: each strictly positive entry is
credited through `addResource`, iterating energy, materials, research in
`Object.entries` order. -/
def applyGains (r g : Resources) : Resources :=
  let r1 := if 0 < g.energy then addResource r .energy g.energy else r
  let r2 := if 0 < g.materials then addResource r1 .materials g.materials else r1
  if 0 < g.research then addResource r2 .research g.research else r2

/-- The offline-progress report
(`{offlineSeconds, effectiveSeconds, gains, wasMaxed}`). -/
structure OfflineReport where
  offlineSeconds : ℚ
  effectiveSeconds : ℚ
  gains : Resources
  wasMaxed : Bool
deriving DecidableEq, Repr

/-- Embedding of `IdleAccumulator.calculateOfflineProgress`.  Timestamps
are milliseconds; `lastSaveAt` is `none` when no previous session exists.
Gaps under 60000 ms are ignored; otherwise the gap is clamped to
`maxOfflineHours`, scaled by `offlineEfficiency`, converted into floored
gains, credited, and reported. -/
def calculateOfflineProgress (maxOfflineHours offlineEfficiency : ℚ)
    (now : ℚ) (lastSaveAt : Option ℚ) (prod : Production) (r : Resources) :
    Option OfflineReport × Resources :=
  match lastSaveAt with
  | none => (none, r)
  | some t =>
    let offlineMs := now - t
    if offlineMs < 60000 then (none, r)
    else
      let maxOfflineMs := maxOfflineHours * 60 * 60 * 1000
      let clamped := min offlineMs maxOfflineMs
      let offlineSeconds := clamped / 1000
      let effectiveSeconds := offlineSeconds * offlineEfficiency
      let gains := offlineGains prod effectiveSeconds
      (some ⟨offlineSeconds, effectiveSeconds, gains, decide (maxOfflineMs ≤ clamped)⟩,
       applyGains r gains)

/-- Embedding of `ResourceSystem.update`: every kind with a strictly
positive production rate is credited `rate * deltaTime` exactly. -/
def resourceTick (prod : Production) (dt : ℚ) (r : Resources) : Resources :=
  let r1 := if 0 < prod.energy then addResource r .energy (prod.energy * dt) else r
  let r2 := if 0 < prod.materials then addResource r1 .materials (prod.materials * dt) else r1
  if 0 < prod.research then addResource r2 .research (prod.research * dt) else r2

/-- Static technology descriptor (an entry of `TECH_TREE` in
`data/techTree.js`): research cost, prerequisite ids, and the
`researchSlots` effect (0 when the effect bundle lacks it).  Other effect
fields only feed the production recompute, abstracted by `prodOf`
below. -/
structure TechDef where
  cost : ℚ
  prerequisites : List String
  researchSlots : ℕ
deriving DecidableEq, Repr

/-- The static tech table `TECH_TREE`. -/
abbrev TechCatalog := String → Option TechDef

/-- The slice of the game state the research scheduler touches:
`ProgressionSystem.researchQueue` / `researchProgressMap` together with
the `completedResearch`, `maxResearchSlots`, `autoResearch` and
`production.research` fields of the state manager. -/
structure RState where
  researchQueue : List String
  progressMap : List (String × ℚ)
  completedResearch : List String
  maxResearchSlots : ℕ
  autoResearch : Bool
  productionResearch : ℚ
deriving DecidableEq, Repr

/-- Read a progress entry (`researchProgressMap[techId] || 0`). -/
def lookupD (m : List (String × ℚ)) (t : String) : ℚ :=
  match m.find? fun e => e.1 = t with
  | some e => e.2
  | none => 0

/-- Write a progress entry (`researchProgressMap[techId] = v`). -/
def setEntry : List (String × ℚ) → String → ℚ → List (String × ℚ)
  | [], t, v => [(t, v)]
  | e :: rest, t, v => if e.1 = t then (t, v) :: rest else e :: setEntry rest t v

/-- Remove a progress entry (`delete researchProgressMap[techId]`). -/
def delEntry (m : List (String × ℚ)) (t : String) : List (String × ℚ) :=
  m.filter fun e => ¬ e.1 = t

/-- The `state.maxResearchSlots || 1` read used by the source (a stored 0
acts as 1). -/
def effSlots (m : ℕ) : ℕ := if m = 0 then 1 else m

/-- Embedding of `ProgressionSystem.startResearch`, validating in source
order: tech known, not yet completed, not already queued, prerequisites
completed (via `StateManager.canResearch`), free slot available; on
success the tech is appended with zero progress. -/
def startResearch (cat : TechCatalog) (s : RState) (techId : String) :
    Bool × RState :=
  match cat techId with
  | none => (false, s)
  | some td =>
    if techId ∈ s.completedResearch then (false, s)
    else if techId ∈ s.researchQueue then (false, s)
    else if ¬ td.prerequisites.all fun p => p ∈ s.completedResearch then (false, s)
    else if effSlots s.maxResearchSlots ≤ s.researchQueue.length then (false, s)
    else
      (true,
        { s with
            researchQueue := s.researchQueue ++ [techId],
            progressMap := setEntry s.progressMap techId 0 })

/-- Embedding of `ProgressionSystem.tryAutoResearch`: when auto-research
is on and a slot is free, start the first tech of
`getAvailableTechs(completedResearch)` that is not already queued.
`avail` stands for `getAvailableTechs` (the tech tree's canonical
ordering). -/
def tryAutoResearch (cat : TechCatalog) (avail : List String → List String)
    (s : RState) : RState :=
  if ¬ s.autoResearch then s
  else if effSlots s.maxResearchSlots ≤ s.researchQueue.length then s
  else
    match (avail s.completedResearch).filter fun t => ¬ t ∈ s.researchQueue with
    | [] => s
    | t :: _ => (startResearch cat s t).2

/-- Embedding of `StateManager.completeResearch` together with the
`research:complete` subscribers registered at init (in subscription
order): the resource system's production recompute, abstracted as
`prodOf` applied to the completed set, and the progression system's
milestone check (which touches none of these fields) followed by
`tryAutoResearch`.  Nothing happens when the tech is already completed
(no push, no event). -/
def smCompleteResearch (cat : TechCatalog) (avail : List String → List String)
    (prodOf : List String → ℚ) (s : RState) (techId : String) : RState :=
  if techId ∈ s.completedResearch then s
  else
    let s1 := { s with completedResearch := s.completedResearch ++ [techId] }
    let s2 := { s1 with productionResearch := prodOf s1.completedResearch }
    tryAutoResearch cat avail s2

/-- Embedding of `ProgressionSystem.addResearchSlot`
(`maxResearchSlots = (maxResearchSlots || 1) + 1`). -/
def addResearchSlot (s : RState) : RState :=
  { s with maxResearchSlots := effSlots s.maxResearchSlots + 1 }

/-- The `for` loop of `completeResearch` granting `researchSlots` many
slots, one `addResearchSlot` call each. -/
def addSlotsIter : RState → ℕ → RState
  | s, 0 => s
  | s, n + 1 => addSlotsIter (addResearchSlot s) n

/-- Embedding of `ProgressionSystem.completeResearch`: remove the tech
from the queue and progress map, mark it completed (firing the
subscribers, auto-research included), then grant any `researchSlots`
effect — in exactly this source order, so the slot grant lands after the
subscriber-triggered auto-research attempt. -/
def completeResearch (cat : TechCatalog) (avail : List String → List String)
    (prodOf : List String → ℚ) (s : RState) (techId : String) : RState :=
  match cat techId with
  | none => s
  | some td =>
    let s1 := { s with
        researchQueue := s.researchQueue.erase techId,
        progressMap := delEntry s.progressMap techId }
    addSlotsIter (smCompleteResearch cat avail prodOf s1 techId) td.researchSlots

/-- The spec's reading of completion order (`researchSlots` granted at the
moment of completion, available already to the auto-research attempt the
completion triggers): slots are added before the completion event fires.
Modelled from the spec for comparison with `completeResearch`. -/
def completeResearchSpec (cat : TechCatalog) (avail : List String → List String)
    (prodOf : List String → ℚ) (s : RState) (techId : String) : RState :=
  match cat techId with
  | none => s
  | some td =>
    let s1 := { s with
        researchQueue := s.researchQueue.erase techId,
        progressMap := delEntry s.progressMap techId }
    smCompleteResearch cat avail prodOf (addSlotsIter s1 td.researchSlots) techId

/-- The accrual loop of `ProgressionSystem.progressAllResearch`: one pass
over the research queue adding `perItemRate * deltaTime` (`perDt`) to each
known tech's progress, collecting (in queue order) the techs whose new
progress reaches their cost; unknown techs are skipped. -/
def accrueLoop (cat : TechCatalog) (perDt : ℚ) :
    List String → List (String × ℚ) → List (String × ℚ) × List String
  | [], m => (m, [])
  | t :: rest, m =>
    match cat t with
    | none => accrueLoop cat perDt rest m
    | some td =>
      let p := lookupD m t + perDt
      let r := accrueLoop cat perDt rest (setEntry m t p)
      (r.1, if td.cost ≤ p then t :: r.2 else r.2)

/-- Embedding of `ProgressionSystem.progressAllResearch`: no-op on an
empty queue or non-positive research rate; otherwise the total rate is
divided evenly across the queue, every item accrues its share, and the
finished items are completed in queue order. -/
def progressAllResearch (cat : TechCatalog) (avail : List String → List String)
    (prodOf : List String → ℚ) (dt : ℚ) (s : RState) : RState :=
  if s.researchQueue.length = 0 then s
  else if s.productionResearch ≤ 0 then s
  else
    let perItem := s.productionResearch / (s.researchQueue.length : ℚ)
    let acc := accrueLoop cat (perItem * dt) s.researchQueue s.progressMap
    acc.2.foldl (completeResearch cat avail prodOf) { s with progressMap := acc.1 }

/-- Embedding of the research part of `ProgressionSystem.update`:
progress all research, then the tick's own `tryAutoResearch` (era
progression, in between in the source, touches none of these fields). -/
def progUpdate (cat : TechCatalog) (avail : List String → List String)
    (prodOf : List String → ℚ) (dt : ℚ) (s : RState) : RState :=
  tryAutoResearch cat avail (progressAllResearch cat avail prodOf dt s)

/-- The era-relevant slice of the game state. -/
structure EraState where
  currentEra : ℕ
  solarCapture : ℚ
deriving DecidableEq, Repr

/-- Embedding of `StateManager.setEra`: only strictly forward moves are
applied. -/
def setEra (s : EraState) (era : ℕ) : EraState :=
  if s.currentEra < era then { s with currentEra := era } else s

/-- Embedding of `ProgressionSystem.checkEraProgression`: iterate the
`CONFIG.ERAS` entries `(eraNumber, threshold)`; every era above the
tick-start snapshot of `currentEra` whose threshold the solar capture
meets is applied through `setEra` (`advanceToEra` reduces to `setEra` for
catalogued eras). -/
def checkEraProgression (eras : List (ℕ × ℚ)) (s : EraState) : EraState :=
  eras.foldl
    (fun st e => if s.currentEra < e.1 ∧ e.2 ≤ s.solarCapture then setEra st e.1 else st)
    s

/-- The `CONFIG.ERAS` table: thresholds 0, 0.001, 0.01, 0.1 for eras
1 to 4 (numeric object keys iterate in ascending order). -/
def configEras : List (ℕ × ℚ) :=
  [(1, 0), (2, 1 / 1000), (3, 1 / 100), (4, 1 / 10)]

/-- Milestone condition forms of `checkMilestoneCondition` in
`data/milestones.js`. -/
inductive MCondition where
  | structure_count (sid : String) (n : ℕ)
  | total_structures (n : ℕ)
  | solar_capture (x : ℚ)
  | research_count (n : ℕ)
  | all_research
  | era (n : ℕ)
deriving DecidableEq, Repr

/-- Static milestone descriptor (an entry of `MILESTONES`): condition,
reward bundle (resource grants plus the possible `sandbox_mode` flag),
and the victory flag. -/
structure Milestone where
  id : String
  condition : MCondition
  rewardResources : List (RKind × ℚ)
  rewardSandbox : Bool
  isVictory : Bool
deriving DecidableEq, Repr

/-- The aggregate state milestone evaluation reads and mutates; the
`victoryLog` records, for accounting, the milestone id of every
`game:victory` emission. -/
structure MState where
  resources : Resources
  structures : List (String × ℕ)
  solarCapture : ℚ
  completedResearch : List String
  totalTechCount : ℕ
  currentEra : ℕ
  claimedMilestones : List String
  victoryAchieved : Bool
  victoryLog : List String
  sandboxMode : Bool
deriving DecidableEq, Repr

/-- Embedding of `checkMilestoneCondition`. -/
def checkMilestoneCondition (m : Milestone) (s : MState) : Bool :=
  match m.condition with
  | .structure_count sid n => n ≤ countOf s.structures sid
  | .total_structures n => n ≤ (s.structures.map Prod.snd).sum
  | .solar_capture x => x ≤ s.solarCapture
  | .research_count n => n ≤ s.completedResearch.length
  | .all_research => s.totalTechCount ≤ s.completedResearch.length
  | .era n => n ≤ s.currentEra

/-- Embedding of `ProgressionSystem.claimMilestone` layered over
`StateManager.claimMilestone`: an already claimed id is a no-op;
otherwise the id joins the claimed set, the reward is applied
(resource grants via `addResource`, or the sandbox flag), and a victory
milestone triggers `triggerVictory` (victory flag plus one
`game:victory` emission). -/
def claimMilestone (s : MState) (m : Milestone) : MState :=
  if m.id ∈ s.claimedMilestones then s
  else
    let s1 := { s with
        claimedMilestones := s.claimedMilestones ++ [m.id],
        resources := m.rewardResources.foldl (fun r e => addResource r e.1 e.2) s.resources,
        sandboxMode := s.sandboxMode || m.rewardSandbox }
    if m.isVictory then
      { s1 with victoryAchieved := true, victoryLog := s1.victoryLog ++ [m.id] }
    else s1

/-- Embedding of `ProgressionSystem.checkMilestones`: collect the
milestones that are unclaimed and satisfied (`getNewlyAchievedMilestones`
against the current claimed set), then claim each in catalog order. -/
def checkMilestones (cat : List Milestone) (s : MState) : MState :=
  (cat.filter fun m => ¬ m.id ∈ s.claimedMilestones ∧ checkMilestoneCondition m s).foldl
    claimMilestone s

theorem amountOf_eq_zero_of_not_mem (costs : List (RKind × ℚ)) (k : RKind)
    (h : k ∉ costs.map Prod.fst) : amountOf costs k = 0 := by
  induction costs with
  | nil => rfl
  | cons e rest ih =>
    simp only [List.map_cons, List.mem_cons, not_or] at h
    rw [amountOf_cons, if_neg (fun hk => h.1 hk.symm), ih h.2, add_zero]

theorem amountOf_le_of_canAfford (r : Resources) (costs : List (RKind × ℚ))
    (k : RKind) (hnd : (costs.map Prod.fst).Nodup) (h : canAfford r costs = true)
    (hk : 0 ≤ r.get k) : amountOf costs k ≤ r.get k := by
  induction costs with
  | nil => simpa [amountOf_nil] using hk
  | cons e rest ih =>
    simp only [List.map_cons, List.nodup_cons] at hnd
    rw [canAfford_cons, Bool.and_eq_true, decide_eq_true_eq] at h
    rw [amountOf_cons]
    by_cases hke : e.1 = k
    · rw [if_pos hke, amountOf_eq_zero_of_not_mem rest k (hke ▸ hnd.1), add_zero]
      exact hke ▸ h.1
    · rw [if_neg hke, zero_add]
      exact ih hnd.2 h.2

/-- Claim C1.  Corrected form: over a cost bundle with distinct kinds,
when every listed kind has a sufficient balance, `spend` succeeds,
deducts exactly every listed amount, and (from non-negative balances)
drives no kind negative; when some kind is insufficient, `spend` fails
without touching the first insufficient entry or anything after it, but
the entries listed before it have already been deducted — the failure is
not all-or-nothing. -/
theorem spend_allOrNothing_corrected (r : Resources) (costs : List (RKind × ℚ))
    (hnd : (costs.map Prod.fst).Nodup) :
    (canAfford r costs = true →
      (spend r costs).1 = true ∧
      (∀ k, (spend r costs).2.get k = r.get k - amountOf costs k) ∧
      ((∀ k, 0 ≤ r.get k) → ∀ k, 0 ≤ (spend r costs).2.get k)) ∧
    (canAfford r costs = false →
      (spend r costs).1 = false ∧
      ∃ pre e post, costs = pre ++ e :: post ∧ canAfford r pre = true ∧
        r.get e.1 < e.2 ∧ (spend r costs).2 = deductAll r pre) := by
  constructor
  · intro h
    refine ⟨by rw [spend_of_canAfford r costs hnd h], ?_, ?_⟩
    · intro k
      exact spend_get_of_canAfford r costs hnd h k
    · intro hpos k
      rw [spend_get_of_canAfford r costs hnd h k, sub_nonneg]
      exact amountOf_le_of_canAfford r costs k hnd h (hpos k)
  · intro h
    obtain ⟨pre, e, post, hsplit, hpre, hlt, hspend⟩ := spend_of_not_canAfford r costs hnd h
    exact ⟨by rw [hspend], pre, e, post, hsplit, hpre, hlt, by rw [hspend]⟩

/-- Claim C1, counterexample to the claim as stated: with balances
`{energy: 100, materials: 50}` and the bundle
`{energy: 50, materials: 100}`, the materials entry is insufficient, so
the claim demands failure with no mutation — but `spend` fails having
already deducted the energy entry (100 drops to 50). -/
theorem spend_partial_deduction_cex :
    (spend ⟨100, 50, 0⟩ [(.energy, 50), (.materials, 100)]).1 = false ∧
    (spend ⟨100, 50, 0⟩ [(.energy, 50), (.materials, 100)]).2 =
      (⟨50, 50, 0⟩ : Resources) ∧
    (⟨50, 50, 0⟩ : Resources) ≠ (⟨100, 50, 0⟩ : Resources) := by
  refine ⟨?_, ?_, by norm_num⟩ <;>
    norm_num [spend, spendResource, Resources.get, Resources.set]

/-- Claim C1, witness for the corrected theorem at a concrete input. -/
theorem spend_allOrNothing_corrected_witness :
    (spend ⟨100, 50, 0⟩ [(.energy, 50), (.materials, 100)]).1 = false ∧
    ∃ pre e post,
      ([(.energy, 50), (.materials, 100)] : List (RKind × ℚ)) = pre ++ e :: post ∧
      canAfford ⟨100, 50, 0⟩ pre = true ∧
      (⟨100, 50, 0⟩ : Resources).get e.1 < e.2 ∧
      (spend ⟨100, 50, 0⟩ [(.energy, 50), (.materials, 100)]).2 =
        deductAll ⟨100, 50, 0⟩ pre :=
  (spend_allOrNothing_corrected ⟨100, 50, 0⟩ [(.energy, 50), (.materials, 100)]
    (by decide)).2
    (by norm_num [canAfford, Resources.get])

/-- Claim C5.  End-to-end scenario A: with starting resources
`{energy: 100, materials: 50, research: 0}`, requesting a `launch_pad`
build (cost `{energy: 50, materials: 100}`) fails with the
`cannot_afford` reason and leaves the whole state — resource quantities
included — unchanged: the affordable energy component is not partially
deducted. -/
theorem build_cannotAfford_no_mutation :
    build demoCatalog 10 defaultCState "launch_pad" =
      (⟨false, some .cannot_afford⟩, defaultCState) := by
  norm_num [build, demoCatalog, launchPad, defaultCState, limitBlocked, countOf,
    getQueuedCount, canAfford, Resources.get]

/-- Claim C10.  Inside `ConstructionSystem.build` the failure branch of
the resource deduction is unreachable: once the `canAfford` check on the
same cost bundle has passed (with no intervening mutation, the call being
synchronous), the `spend` it performs returns `true` and deducts every
cost kind in full; the built state carries exactly those balances. -/
theorem build_spend_failure_unreachable (catalog : String → Option StructureDef)
    (maxQueue : ℕ) (s : CState) (sid : String) (sd : StructureDef)
    (hsd : catalog sid = some sd) (hnd : (sd.cost.map Prod.fst).Nodup)
    (hsucc : (build catalog maxQueue s sid).1.success = true) :
    (spend s.resources sd.cost).1 = true ∧
    ∀ k, (build catalog maxQueue s sid).2.resources.get k =
      s.resources.get k - amountOf sd.cost k := by
  have hbuild := hsucc
  simp only [build, hsd] at hbuild ⊢
  by_cases h1 : sd.requiresTech ∈ s.completedResearch
  · rw [if_pos h1] at hbuild ⊢
    by_cases h2 : limitBlocked sd (countOf s.structures sid) (getQueuedCount s.queue sid) = true
    · rw [if_pos h2] at hbuild; exact absurd hbuild (by simp)
    · rw [if_neg h2] at hbuild ⊢
      by_cases h3 : canAfford s.resources sd.cost = true
      · rw [if_pos h3] at hbuild ⊢
        by_cases h4 : maxQueue ≤ s.queue.length
        · rw [if_pos h4] at hbuild; exact absurd hbuild (by simp)
        · rw [if_neg h4]
          refine ⟨by rw [spend_of_canAfford s.resources sd.cost hnd h3], ?_⟩
          intro k
          exact spend_get_of_canAfford s.resources sd.cost hnd h3 k
      · rw [if_neg h3] at hbuild; exact absurd hbuild (by simp)
  · rw [if_neg h1] at hbuild; exact absurd hbuild (by simp)

/-- Claim C10, witness: an affordable `launch_pad` build from boosted
balances `{energy: 100, materials: 150}` goes through the success branch
and deducts both kinds in full. -/
theorem build_spend_failure_unreachable_witness :
    (spend ⟨100, 150, 0⟩ launchPad.cost).1 = true ∧
    ∀ k, (build demoCatalog 10 ⟨⟨100, 150, 0⟩, [], [], ["basic_rocketry"], 0⟩
        "launch_pad").2.resources.get k =
      (⟨100, 150, 0⟩ : Resources).get k - amountOf launchPad.cost k :=
  build_spend_failure_unreachable demoCatalog 10
    ⟨⟨100, 150, 0⟩, [], [], ["basic_rocketry"], 0⟩ "launch_pad" launchPad
    (by decide)
    (by decide)
    (by norm_num [build, demoCatalog, launchPad, limitBlocked, countOf,
      getQueuedCount, canAfford, Resources.get])

theorem drainAuto_spec (p : ℚ) (q : List QueueItem) (c : List (String × ℕ))
    (hp : 0 ≤ p) :
    drainAuto p q c =
      (p - (min ⌊p⌋₊ q.length : ℕ), q.drop (min ⌊p⌋₊ q.length),
        ((q.take (min ⌊p⌋₊ q.length)).map QueueItem.structureId).foldl
          bumpCount c) := by
  induction q generalizing p c with
  | nil => simp [drainAuto]
  | cons item rest ih =>
    by_cases h1 : 1 ≤ p
    · have hfl : 1 ≤ ⌊p⌋₊ := Nat.one_le_floor_iff p |>.mpr h1
      have hsub : ⌊p - 1⌋₊ = ⌊p⌋₊ - 1 := by
        have hn := Nat.floor_sub_nat p 1
        simp only [Nat.cast_one] at hn
        exact hn
      have hmin : min ⌊p⌋₊ (item :: rest).length = min ⌊p - 1⌋₊ rest.length + 1 := by
        rw [hsub, List.length_cons]
        omega
      rw [drainAuto, if_pos h1, ih (p - 1) _ (by linarith), hmin]
      have hcast : ((min ⌊p - 1⌋₊ rest.length + 1 : ℕ) : ℚ) =
          (min ⌊p - 1⌋₊ rest.length : ℕ) + 1 := by push_cast; ring
      rw [hcast]
      refine congrArg₂ Prod.mk (by ring) (congrArg₂ Prod.mk ?_ ?_)
      · rw [List.drop_succ_cons]
      · rw [List.take_succ_cons, List.map_cons, List.foldl_cons]
    · have hfl : ⌊p⌋₊ = 0 := Nat.floor_eq_zero.mpr (not_le.mp h1)
      rw [drainAuto, if_neg h1, hfl]
      simp

/-- Claim C4, counterexample to the claim as stated: on a tick with an
empty construction queue, auto-construction rate 60/min and one second of
delta time, the claim demands the fractional counter to accumulate
`60/60 * 1 = 1`, but `applyAutoConstruction` returns before accumulating
(the source checks the queue first), so the counter stays 0 after the
tick. -/
theorem autoConstruction_empty_queue_cex :
    (updateConstruction 1 60 1 ⟨⟨0, 0, 0⟩, [], [], [], 0⟩).autoBuildProgress = 0 ∧
    (0 : ℚ) + 60 / 60 * 1 = 1 ∧ (0 : ℚ) ≠ 1 := by
  refine ⟨?_, by norm_num, by norm_num⟩
  norm_num [updateConstruction, applyAutoConstruction]

/-- Claim C4.  Corrected form: the fractional counter accumulates
`rate/60 * deltaTime` only on ticks where the queue is non-empty and the
rate positive (an empty-queue tick leaves the whole state, counter
included, unchanged); when it does accumulate to `p₁`, the loop instantly
completes the first `min ⌊p₁⌋ queueLength` queued items — several in one
tick when the counter allows — and decrements the counter by one per
completed item. -/
theorem autoConstruction_corrected (buildSpeed rate dt : ℚ) (s : CState) :
    (s.queue = [] → updateConstruction buildSpeed rate dt s = s) ∧
    (rate ≤ 0 → applyAutoConstruction rate dt s = s) ∧
    (s.queue ≠ [] → 0 < rate → 0 ≤ s.autoBuildProgress + rate / 60 * dt →
      applyAutoConstruction rate dt s =
        { s with
            autoBuildProgress := s.autoBuildProgress + rate / 60 * dt -
              (min ⌊s.autoBuildProgress + rate / 60 * dt⌋₊ s.queue.length : ℕ),
            queue := s.queue.drop
              (min ⌊s.autoBuildProgress + rate / 60 * dt⌋₊ s.queue.length),
            structures :=
              ((s.queue.take
                  (min ⌊s.autoBuildProgress + rate / 60 * dt⌋₊ s.queue.length)).map
                QueueItem.structureId).foldl bumpCount s.structures }) := by
  refine ⟨?_, ?_, ?_⟩
  · intro hq
    rw [updateConstruction.eq_def]
    cases hqm : s.queue with
    | cons a l => rw [hq] at hqm; exact absurd hqm (by simp)
    | nil =>
      rw [applyAutoConstruction, if_pos]
      rw [hq]
      rfl
  · intro hr
    rw [applyAutoConstruction]
    by_cases hq : s.queue.length = 0
    · rw [if_pos hq]
    · rw [if_neg hq, if_pos hr]
  · intro hq hr hcnt
    rw [applyAutoConstruction,
      if_neg (fun h => hq (List.length_eq_zero.mp h)),
      if_neg (not_le.mpr hr),
      drainAuto_spec _ _ _ hcnt]

/-- Claim C4, witness: with two queued items, counter 0, rate 120/min and
one second of delta time, the counter reaches 2 and both items are
completed in the single tick, leaving the counter at 0. -/
theorem autoConstruction_corrected_witness :
    applyAutoConstruction 120 1
        ⟨⟨0, 0, 0⟩, [], [⟨"a", 1, 0⟩, ⟨"b", 1, 0⟩], [], 0⟩ =
      ⟨⟨0, 0, 0⟩, [("a", 1), ("b", 1)], [], [], 0⟩ := by
  have h := (autoConstruction_corrected 1 120 1
    ⟨⟨0, 0, 0⟩, [], [⟨"a", 1, 0⟩, ⟨"b", 1, 0⟩], [], 0⟩).2.2
    (by simp) (by norm_num) (by norm_num)
  rw [h]
  have hp : ((⟨⟨0, 0, 0⟩, [], [⟨"a", 1, 0⟩, ⟨"b", 1, 0⟩], [], 0⟩ :
      CState).autoBuildProgress + 120 / 60 * 1) = (2 : ℚ) := by norm_num
  rw [hp]
  norm_num [bumpCount]
  decide

theorem applyGains_get (r g : Resources) (k : RKind) :
    (applyGains r g).get k = r.get k + (if 0 < g.get k then g.get k else 0) := by
  cases k <;>
    by_cases h1 : 0 < g.energy <;> by_cases h2 : 0 < g.materials <;>
      by_cases h3 : 0 < g.research <;>
        simp [applyGains, addResource, Resources.get, Resources.set, h1, h2, h3]

theorem resourceTick_get (prod : Production) (dt : ℚ) (r : Resources) (k : RKind) :
    (resourceTick prod dt r).get k =
      r.get k + (if 0 < prod.get k then prod.get k * dt else 0) := by
  cases k <;>
    by_cases h1 : 0 < prod.energy <;> by_cases h2 : 0 < prod.materials <;>
      by_cases h3 : 0 < prod.research <;>
        simp [resourceTick, addResource, Resources.get, Resources.set, h1, h2, h3]

theorem foldl_floor_refund_int (mult : ℚ) (l : List (RKind × ℚ)) (r : Resources)
    (k : RKind) :
    ∃ n : ℤ, (l.foldl (fun acc e => addResource acc e.1 (floorQ (e.2 * mult))) r).get k =
      r.get k + n := by
  induction l generalizing r with
  | nil => exact ⟨0, by simp⟩
  | cons e rest ih =>
    rw [List.foldl_cons]
    obtain ⟨n, hn⟩ := ih (addResource r e.1 (floorQ (e.2 * mult)))
    by_cases h : e.1 = k
    · subst h
      refine ⟨⌊e.2 * mult⌋ + n, ?_⟩
      rw [hn, addResource, Resources.get_set_self, floorQ]
      push_cast
      ring
    · refine ⟨n, ?_⟩
      rw [hn, addResource, Resources.get_set_ne _ _ _ _ h]

/-- Claim C9, counterexample to the claim as stated: with a production
rate of 0.1 energy/s and a 61 s offline gap at 50 % efficiency, the exact
credit would be `0.1 * 30.5 = 3.05`, but the offline path floors the gain
before crediting, so the balance moves from 100 to 103, not 103.05 —
flooring is applied outside the cancellation-refund path. -/
theorem offline_gain_floored_cex :
    (calculateOfflineProgress 24 (1 / 2) 61000 (some 0)
        ⟨1 / 10, 0, 0⟩ ⟨100, 0, 0⟩).2.energy = 103 ∧
    (100 : ℚ) + 1 / 10 * (61000 / 1000 * (1 / 2)) ≠ 103 := by
  constructor
  · have h60 : ¬ ((61000 : ℚ) - 0 < 60000) := by norm_num
    have hmin : min ((61000 : ℚ) - 0) (24 * 60 * 60 * 1000) = 61000 := by norm_num
    rw [calculateOfflineProgress, if_neg h60]
    norm_num [hmin, offlineGains, applyGains, addResource, floorQ,
      Resources.get, Resources.set]
  · norm_num

/-- Claim C9.  Corrected form: `addResource` (and the per-tick production
accrual built on it) credits fractional amounts exactly and `spendResource`
deducts them exactly — no rounding on the live economy paths; flooring to
whole units happens in the construction-cancellation refund path and also
in the offline-gain path, both of which change every balance by an integer
amount. -/
theorem rounding_paths_corrected (r prod : Resources) (k : RKind)
    (a dt mult : ℚ) (l : List (RKind × ℚ)) (mh eff now t : ℚ) :
    ((addResource r k a).get k = r.get k + a) ∧
    ((resourceTick prod dt r).get k =
      r.get k + (if 0 < prod.get k then prod.get k * dt else 0)) ∧
    (a ≤ r.get k → (spendResource r k a).2.get k = r.get k - a) ∧
    (∃ n : ℤ,
      (l.foldl (fun acc e => addResource acc e.1 (floorQ (e.2 * mult))) r).get k =
        r.get k + n) ∧
    (∃ n : ℤ,
      (calculateOfflineProgress mh eff now (some t) prod r).2.get k =
        r.get k + n) := by
  refine ⟨?_, resourceTick_get prod dt r k, ?_, foldl_floor_refund_int mult l r k, ?_⟩
  · rw [addResource, Resources.get_set_self]
  · intro h
    rw [spendResource, if_neg (not_lt.mpr h), Resources.get_set_self]
  · rw [calculateOfflineProgress]
    by_cases h60 : now - t < 60000
    · exact ⟨0, by rw [if_pos h60]; simp⟩
    · rw [if_neg h60]
      simp only
      rw [applyGains_get]
      by_cases hpos :
          0 < (offlineGains prod (min (now - t) (mh * 60 * 60 * 1000) / 1000 * eff)).get k
      · rw [if_pos hpos]
        refine ⟨⌊prod.get k * (min (now - t) (mh * 60 * 60 * 1000) / 1000 * eff)⌋, ?_⟩
        cases k <;> simp [offlineGains, floorQ, Resources.get]
      · exact ⟨0, by rw [if_neg hpos]; norm_num⟩

/-- Claim C9, witness for the corrected theorem at concrete inputs. -/
theorem rounding_paths_corrected_witness :
    (addResource ⟨0, 0, 0⟩ .energy (1 / 4)).get .energy =
      (⟨0, 0, 0⟩ : Resources).get .energy + 1 / 4 ∧
    (spendResource ⟨1, 0, 0⟩ .energy (1 / 4)).2.get .energy =
      (⟨1, 0, 0⟩ : Resources).get .energy - 1 / 4 := by
  refine ⟨(rounding_paths_corrected ⟨0, 0, 0⟩ ⟨0, 0, 0⟩ .energy
      (1 / 4) 0 0 [] 0 0 0 0).1, ?_⟩
  exact (rounding_paths_corrected ⟨1, 0, 0⟩ ⟨0, 0, 0⟩ .energy
      (1 / 4) 0 0 [] 0 0 0 0).2.2.1 (by norm_num [Resources.get])

/-- Claim C8.  An offline gap below 60 seconds (60000 ms) adds no
resources and produces no offline-progress report; a gap at or above the
configured maximum is clamped to that maximum before the efficiency
factor and production rates are applied (the report shows the clamped
`maxOfflineHours * 3600` seconds and gains computed from them), and the
report's `wasMaxed` flag marks that the cap was hit. -/
theorem offline_reconciliation_clamp (mh eff now t : ℚ) (prod r : Resources) :
    (now - t < 60000 →
      calculateOfflineProgress mh eff now (some t) prod r = (none, r)) ∧
    (60000 ≤ now - t → mh * 60 * 60 * 1000 ≤ now - t →
      calculateOfflineProgress mh eff now (some t) prod r =
        (some ⟨mh * 3600, mh * 3600 * eff, offlineGains prod (mh * 3600 * eff), true⟩,
          applyGains r (offlineGains prod (mh * 3600 * eff)))) := by
  constructor
  · intro h
    rw [calculateOfflineProgress, if_pos h]
  · intro h60 hcap
    rw [calculateOfflineProgress, if_neg (not_lt.mpr h60)]
    have hmin : min (now - t) (mh * 60 * 60 * 1000) = mh * 60 * 60 * 1000 :=
      min_eq_right hcap
    have hsec : mh * 60 * 60 * 1000 / 1000 = mh * 3600 := by ring
    simp only [hmin, hsec]
    rw [decide_eq_true le_rfl]

/-- Claim C8, witness: with the configured 24 h cap and 0.5 efficiency, a
30 s gap yields no report and unchanged resources, while a 25 h gap is
clamped to 24 h = 86400 s (43200 effective seconds) with `wasMaxed`
set. -/
theorem offline_reconciliation_clamp_witness :
    calculateOfflineProgress 24 (1 / 2) 30000 (some 0) ⟨1, 1, 1⟩ ⟨5, 5, 5⟩ =
      (none, ⟨5, 5, 5⟩) ∧
    calculateOfflineProgress 24 (1 / 2) 90000000 (some 0) ⟨1, 1, 1⟩ ⟨5, 5, 5⟩ =
      (some ⟨24 * 3600, 24 * 3600 * (1 / 2),
          offlineGains ⟨1, 1, 1⟩ (24 * 3600 * (1 / 2)), true⟩,
        applyGains ⟨5, 5, 5⟩ (offlineGains ⟨1, 1, 1⟩ (24 * 3600 * (1 / 2)))) := by
  constructor
  · exact (offline_reconciliation_clamp 24 (1 / 2) 30000 0 ⟨1, 1, 1⟩ ⟨5, 5, 5⟩).1
      (by norm_num)
  · exact (offline_reconciliation_clamp 24 (1 / 2) 90000000 0 ⟨1, 1, 1⟩ ⟨5, 5, 5⟩).2
      (by norm_num) (by norm_num)

theorem setEra_currentEra (s : EraState) (n : ℕ) :
    (setEra s n).currentEra = max s.currentEra n := by
  rw [setEra]
  by_cases h : s.currentEra < n
  · rw [if_pos h]
    exact (max_eq_right (le_of_lt h)).symm
  · rw [if_neg h]
    exact (max_eq_left (not_lt.mp h)).symm

theorem setEra_solarCapture (s : EraState) (n : ℕ) :
    (setEra s n).solarCapture = s.solarCapture := by
  rw [setEra]
  by_cases h : s.currentEra < n
  · rw [if_pos h]
  · rw [if_neg h]

theorem checkEra_fold (eras : List (ℕ × ℚ)) (s st : EraState) :
    (eras.foldl
        (fun st e => if s.currentEra < e.1 ∧ e.2 ≤ s.solarCapture then setEra st e.1 else st)
        st).currentEra =
      (eras.filter fun e => decide (s.currentEra < e.1 ∧ e.2 ≤ s.solarCapture)).foldl
        (fun a e => max a e.1) st.currentEra := by
  induction eras generalizing st with
  | nil => rfl
  | cons e rest ih =>
    rw [List.foldl_cons, List.filter_cons]
    by_cases h : s.currentEra < e.1 ∧ e.2 ≤ s.solarCapture
    · rw [if_pos h, decide_eq_true h, if_pos rfl, ih (setEra st e.1),
        List.foldl_cons, setEra_currentEra]
    · rw [if_neg h, decide_eq_false h, if_neg Bool.false_ne_true, ih st]

theorem checkEra_fold_solar (eras : List (ℕ × ℚ)) (s st : EraState) :
    (eras.foldl
        (fun st e => if s.currentEra < e.1 ∧ e.2 ≤ s.solarCapture then setEra st e.1 else st)
        st).solarCapture = st.solarCapture := by
  induction eras generalizing st with
  | nil => rfl
  | cons e rest ih =>
    rw [List.foldl_cons]
    by_cases h : s.currentEra < e.1 ∧ e.2 ≤ s.solarCapture
    · rw [if_pos h, ih (setEra st e.1), setEra_solarCapture]
    · rw [if_neg h, ih st]

theorem le_foldl_max (l : List (ℕ × ℚ)) (a : ℕ) :
    a ≤ l.foldl (fun a e => max a e.1) a := by
  induction l generalizing a with
  | nil => exact le_refl a
  | cons e rest ih => exact le_trans (le_max_left a e.1) (ih (max a e.1))

theorem mem_le_foldl_max (l : List (ℕ × ℚ)) (a : ℕ) (e : ℕ × ℚ) (he : e ∈ l) :
    e.1 ≤ l.foldl (fun a e => max a e.1) a := by
  induction l generalizing a with
  | nil => cases he
  | cons f rest ih =>
    rw [List.foldl_cons]
    rcases List.mem_cons.mp he with h | h
    · exact le_trans (h ▸ le_max_right a f.1) (le_foldl_max rest (max a f.1))
    · exact ih (max a f.1) h

/-- Claim C7.  `currentEra` is monotonically non-decreasing: `setEra`
never lowers it, and one `checkEraProgression` evaluation (which leaves
solar capture untouched) lands exactly on the maximum of the starting era
and every era of the table whose threshold the snapshotted solar capture
meets — so crossing several thresholds in one tick advances straight to
the highest qualifying era, and every qualifying era is dominated by the
result. -/
theorem era_monotone_highest (eras : List (ℕ × ℚ)) (s : EraState) (n : ℕ) :
    (s.currentEra ≤ (setEra s n).currentEra) ∧
    ((checkEraProgression eras s).solarCapture = s.solarCapture) ∧
    ((checkEraProgression eras s).currentEra =
      (eras.filter fun e => decide (s.currentEra < e.1 ∧ e.2 ≤ s.solarCapture)).foldl
        (fun a e => max a e.1) s.currentEra) ∧
    (s.currentEra ≤ (checkEraProgression eras s).currentEra) ∧
    (∀ e ∈ eras, s.currentEra < e.1 → e.2 ≤ s.solarCapture →
      e.1 ≤ (checkEraProgression eras s).currentEra) := by
  have hfold := checkEra_fold eras s s
  refine ⟨?_, ?_, hfold, ?_, ?_⟩
  · rw [setEra_currentEra]
    exact le_max_left _ _
  · rw [checkEraProgression]
    exact checkEra_fold_solar eras s s
  · rw [checkEraProgression, hfold]
    exact le_foldl_max _ _
  · intro e he h1 h2
    rw [checkEraProgression, hfold]
    exact mem_le_foldl_max _ _ e
      (List.mem_filter.mpr ⟨he, decide_eq_true ⟨h1, h2⟩⟩)

/-- Claim C7, witness: from era 1 with 2 % solar capture, the tick-level
evaluation over the `CONFIG.ERAS` table reaches at least era 3 (whose 1 %
threshold is met). -/
theorem era_monotone_highest_witness :
    (3 : ℕ) ≤ (checkEraProgression configEras ⟨1, 1 / 50⟩).currentEra :=
  (era_monotone_highest configEras ⟨1, 1 / 50⟩ 0).2.2.2.2 (3, 1 / 100)
    (by norm_num [configEras]) (by norm_num) (by norm_num)

theorem claimMilestone_fields (s : MState) (m : Milestone) :
    (claimMilestone s m).structures = s.structures ∧
    (claimMilestone s m).solarCapture = s.solarCapture ∧
    (claimMilestone s m).completedResearch = s.completedResearch ∧
    (claimMilestone s m).totalTechCount = s.totalTechCount ∧
    (claimMilestone s m).currentEra = s.currentEra := by
  rw [claimMilestone]
  by_cases h : m.id ∈ s.claimedMilestones
  · rw [if_pos h]
    exact ⟨rfl, rfl, rfl, rfl, rfl⟩
  · rw [if_neg h]
    by_cases hv : m.isVictory
    · rw [if_pos hv]
      exact ⟨rfl, rfl, rfl, rfl, rfl⟩
    · rw [if_neg hv]
      exact ⟨rfl, rfl, rfl, rfl, rfl⟩

theorem checkMilestoneCondition_claim (m' : Milestone) (s : MState) (m : Milestone) :
    checkMilestoneCondition m' (claimMilestone s m) = checkMilestoneCondition m' s := by
  obtain ⟨h1, h2, h3, h4, h5⟩ := claimMilestone_fields s m
  cases hc : m'.condition <;> simp [checkMilestoneCondition, hc, h1, h2, h3, h4, h5]

theorem claimMilestone_claimed_mono (s : MState) (m : Milestone) (x : String)
    (hx : x ∈ s.claimedMilestones) : x ∈ (claimMilestone s m).claimedMilestones := by
  rw [claimMilestone]
  by_cases h : m.id ∈ s.claimedMilestones
  · rw [if_pos h]; exact hx
  · rw [if_neg h]
    by_cases hv : m.isVictory
    · rw [if_pos hv]
      exact List.mem_append_left _ hx
    · rw [if_neg hv]
      exact List.mem_append_left _ hx

theorem claimMilestone_mem_claimed (s : MState) (m : Milestone) :
    m.id ∈ (claimMilestone s m).claimedMilestones := by
  rw [claimMilestone]
  by_cases h : m.id ∈ s.claimedMilestones
  · rw [if_pos h]; exact h
  · rw [if_neg h]
    by_cases hv : m.isVictory
    · rw [if_pos hv]
      exact List.mem_append_right _ (List.mem_singleton.mpr rfl)
    · rw [if_neg hv]
      exact List.mem_append_right _ (List.mem_singleton.mpr rfl)

theorem claimMilestone_victoryCount (s : MState) (m : Milestone) (x : String)
    (hx : x ∈ s.claimedMilestones) :
    (claimMilestone s m).victoryLog.count x = s.victoryLog.count x := by
  rw [claimMilestone]
  by_cases h : m.id ∈ s.claimedMilestones
  · rw [if_pos h]
  · have hne : m.id ≠ x := fun he => h (he ▸ hx)
    rw [if_neg h]
    by_cases hv : m.isVictory
    · rw [if_pos hv]
      simp [List.count_append, List.count_singleton, hne]
    · rw [if_neg hv]

theorem foldClaim_fields (L : List Milestone) (s : MState) :
    ((L.foldl claimMilestone s).structures = s.structures ∧
      (L.foldl claimMilestone s).solarCapture = s.solarCapture ∧
      (L.foldl claimMilestone s).completedResearch = s.completedResearch ∧
      (L.foldl claimMilestone s).totalTechCount = s.totalTechCount ∧
      (L.foldl claimMilestone s).currentEra = s.currentEra) := by
  induction L generalizing s with
  | nil => exact ⟨rfl, rfl, rfl, rfl, rfl⟩
  | cons m rest ih =>
    rw [List.foldl_cons]
    obtain ⟨i1, i2, i3, i4, i5⟩ := ih (claimMilestone s m)
    obtain ⟨c1, c2, c3, c4, c5⟩ := claimMilestone_fields s m
    exact ⟨i1.trans c1, i2.trans c2, i3.trans c3, i4.trans c4, i5.trans c5⟩

theorem foldClaim_claimed_mono (L : List Milestone) (s : MState) (x : String)
    (hx : x ∈ s.claimedMilestones) :
    x ∈ (L.foldl claimMilestone s).claimedMilestones := by
  induction L generalizing s with
  | nil => exact hx
  | cons m rest ih =>
    rw [List.foldl_cons]
    exact ih (claimMilestone s m) (claimMilestone_claimed_mono s m x hx)

theorem foldClaim_mem_claimed (L : List Milestone) (s : MState) (m : Milestone)
    (hm : m ∈ L) : m.id ∈ (L.foldl claimMilestone s).claimedMilestones := by
  induction L generalizing s with
  | nil => cases hm
  | cons f rest ih =>
    rw [List.foldl_cons]
    rcases List.mem_cons.mp hm with h | h
    · exact foldClaim_claimed_mono rest (claimMilestone s f) m.id
        (h ▸ claimMilestone_mem_claimed s f)
    · exact ih (claimMilestone s f) h

theorem foldClaim_victoryCount (L : List Milestone) (s : MState) (x : String)
    (hx : x ∈ s.claimedMilestones) :
    (L.foldl claimMilestone s).victoryLog.count x = s.victoryLog.count x := by
  induction L generalizing s with
  | nil => rfl
  | cons m rest ih =>
    rw [List.foldl_cons,
      ih (claimMilestone s m) (claimMilestone_claimed_mono s m x hx),
      claimMilestone_victoryCount s m x hx]

theorem checkMilestoneCondition_congr (m : Milestone) (s s' : MState)
    (h1 : s'.structures = s.structures) (h2 : s'.solarCapture = s.solarCapture)
    (h3 : s'.completedResearch = s.completedResearch)
    (h4 : s'.totalTechCount = s.totalTechCount) (h5 : s'.currentEra = s.currentEra) :
    checkMilestoneCondition m s' = checkMilestoneCondition m s := by
  cases hc : m.condition <;> simp [checkMilestoneCondition, hc, h1, h2, h3, h4, h5]

theorem checkMilestones_condition_stable (cat : List Milestone) (s : MState)
    (m : Milestone) :
    checkMilestoneCondition m (checkMilestones cat s) = checkMilestoneCondition m s := by
  rw [checkMilestones]
  obtain ⟨h1, h2, h3, h4, h5⟩ := foldClaim_fields
    (cat.filter fun m => ¬ m.id ∈ s.claimedMilestones ∧ checkMilestoneCondition m s) s
  exact checkMilestoneCondition_congr m s _ h1 h2 h3 h4 h5

/-- Claim C6.  Every milestone is claimed at most once: claiming an
already claimed milestone is the identity (no re-claim, no re-reward, no
victory re-emission); re-running the whole milestone evaluation on the
resulting state changes nothing at all; the claimed set only grows; once
a milestone id is claimed, no later evaluation adds another
`game:victory` emission for it, and the first (and only) claim of a
victory milestone emits it exactly once. -/
theorem milestones_claim_once (cat : List Milestone) (s : MState) (m : Milestone) :
    (m.id ∈ s.claimedMilestones → claimMilestone s m = s) ∧
    (checkMilestones cat (checkMilestones cat s) = checkMilestones cat s) ∧
    (∀ x ∈ s.claimedMilestones, x ∈ (checkMilestones cat s).claimedMilestones) ∧
    (m.id ∈ s.claimedMilestones →
      (checkMilestones cat s).victoryLog.count m.id = s.victoryLog.count m.id) ∧
    (m.id ∉ s.claimedMilestones →
      (claimMilestone s m).victoryLog.count m.id =
        s.victoryLog.count m.id + (if m.isVictory then 1 else 0)) := by
  refine ⟨fun h => by rw [claimMilestone, if_pos h], ?_, ?_, ?_, ?_⟩
  · rw [checkMilestones]
    have hnil : (cat.filter fun m' =>
        ¬ m'.id ∈ (checkMilestones cat s).claimedMilestones ∧
          checkMilestoneCondition m' (checkMilestones cat s)) = [] := by
      rw [List.filter_eq_nil_iff]
      intro m' hm'
      simp only [decide_eq_true_eq]
      rintro ⟨hnc, hcond⟩
      rw [checkMilestones_condition_stable cat s m'] at hcond
      rw [checkMilestones] at hnc
      by_cases hclaimed : m'.id ∈ s.claimedMilestones
      · exact hnc (foldClaim_claimed_mono _ s m'.id hclaimed)
      · have hmem : m' ∈ cat.filter fun x =>
            ¬ x.id ∈ s.claimedMilestones ∧ checkMilestoneCondition x s := by
          rw [List.mem_filter]
          exact ⟨hm', decide_eq_true ⟨hclaimed, hcond⟩⟩
        exact hnc (foldClaim_mem_claimed _ s m' hmem)
    rw [hnil]
    rfl
  · intro x hx
    exact foldClaim_claimed_mono _ s x hx
  · intro h
    exact foldClaim_victoryCount _ s m.id h
  · intro h
    rw [claimMilestone, if_neg h]
    by_cases hv : m.isVictory
    · rw [if_pos hv]
      simp [List.count_append, List.count_singleton, hv]
    · rw [if_neg hv]
      simp [hv]

/-- Claim C6, witness: a concrete already-claimed milestone is skipped by
a re-claim, and freshly claiming a victory milestone logs exactly one
victory emission. -/
theorem milestones_claim_once_witness :
    claimMilestone
        ⟨⟨0, 0, 0⟩, [], 0, [], 0, 1, ["won"], true, ["won"], false⟩
        ⟨"won", .era 1, [], false, true⟩ =
      ⟨⟨0, 0, 0⟩, [], 0, [], 0, 1, ["won"], true, ["won"], false⟩ ∧
    (claimMilestone ⟨⟨0, 0, 0⟩, [], 0, [], 0, 1, [], false, [], false⟩
        ⟨"won", .era 1, [], false, true⟩).victoryLog.count "won" =
      ([] : List String).count "won" + (if true then 1 else 0) := by
  constructor
  · exact (milestones_claim_once []
      ⟨⟨0, 0, 0⟩, [], 0, [], 0, 1, ["won"], true, ["won"], false⟩
      ⟨"won", .era 1, [], false, true⟩).1 (by decide)
  · exact (milestones_claim_once []
      ⟨⟨0, 0, 0⟩, [], 0, [], 0, 1, [], false, [], false⟩
      ⟨"won", .era 1, [], false, true⟩).2.2.2.2 (by decide)

theorem startResearch_maxSlots (cat : TechCatalog) (s : RState) (t : String) :
    (startResearch cat s t).2.maxResearchSlots = s.maxResearchSlots := by
  cases hc : cat t with
  | none => simp [startResearch, hc]
  | some td =>
    by_cases h1 : t ∈ s.completedResearch
    · simp [startResearch, hc, h1]
    · by_cases h2 : t ∈ s.researchQueue
      · simp [startResearch, hc, h1, h2]
      · by_cases h3 : td.prerequisites.all fun p => p ∈ s.completedResearch
        · by_cases h4 : effSlots s.maxResearchSlots ≤ s.researchQueue.length
          · simp [startResearch, hc, h1, h2, h3, h4]
          · simp [startResearch, hc, h1, h2, h3, h4]
        · simp [startResearch, hc, h1, h2, h3]

theorem tryAutoResearch_maxSlots (cat : TechCatalog)
    (avail : List String → List String) (s : RState) :
    (tryAutoResearch cat avail s).maxResearchSlots = s.maxResearchSlots := by
  rw [tryAutoResearch]
  by_cases h1 : ¬ s.autoResearch
  · rw [if_pos h1]
  · rw [if_neg h1]
    by_cases h2 : effSlots s.maxResearchSlots ≤ s.researchQueue.length
    · rw [if_pos h2]
    · rw [if_neg h2]
      cases hl : (avail s.completedResearch).filter fun t => ¬ t ∈ s.researchQueue with
      | nil => rfl
      | cons t rest => exact startResearch_maxSlots cat s t

theorem smCompleteResearch_maxSlots (cat : TechCatalog)
    (avail : List String → List String) (prodOf : List String → ℚ)
    (s : RState) (techId : String) :
    (smCompleteResearch cat avail prodOf s techId).maxResearchSlots =
      s.maxResearchSlots := by
  rw [smCompleteResearch]
  by_cases h : techId ∈ s.completedResearch
  · rw [if_pos h]
  · rw [if_neg h]
    exact tryAutoResearch_maxSlots cat avail _

theorem startResearch_snd_max_invariant (cat : TechCatalog) (t : String)
    (q : List String) (pm : List (String × ℚ)) (cr : List String) (ar : Bool)
    (pr : ℚ) (m m' : ℕ) (hm : q.length < effSlots m) (hm' : q.length < effSlots m') :
    (startResearch cat ⟨q, pm, cr, m, ar, pr⟩ t).2 =
      { (startResearch cat ⟨q, pm, cr, m', ar, pr⟩ t).2 with maxResearchSlots := m } := by
  have hm2 : ¬ effSlots m ≤ q.length := not_le.mpr hm
  have hm2' : ¬ effSlots m' ≤ q.length := not_le.mpr hm'
  rw [startResearch, startResearch]
  cases cat t with
  | none => rfl
  | some td =>
    by_cases h1 : t ∈ cr
    · simp [h1]
    · by_cases h2 : t ∈ q
      · simp [h1, h2]
      · by_cases h3 : td.prerequisites.all fun p => p ∈ cr
        · simp [h1, h2, h3, hm2, hm2']
        · simp [h1, h2, h3]

theorem tryAuto_max_invariant (cat : TechCatalog)
    (avail : List String → List String) (q : List String)
    (pm : List (String × ℚ)) (cr : List String) (ar : Bool) (pr : ℚ)
    (m m' : ℕ) (hm : q.length < effSlots m) (hm' : q.length < effSlots m') :
    tryAutoResearch cat avail ⟨q, pm, cr, m, ar, pr⟩ =
      { tryAutoResearch cat avail ⟨q, pm, cr, m', ar, pr⟩ with
          maxResearchSlots := m } := by
  have hm2 : ¬ effSlots m ≤ q.length := not_le.mpr hm
  have hm2' : ¬ effSlots m' ≤ q.length := not_le.mpr hm'
  rw [tryAutoResearch, tryAutoResearch]
  by_cases h1 : ¬ ar
  · simp [h1]
  · simp only [h1, if_false]
    cases hl : (avail cr).filter fun t => ¬ t ∈ q with
    | nil => simp [hm2, hm2', hl]
    | cons t rest =>
      simp only [hm2, hm2', if_false, hl]
      exact startResearch_snd_max_invariant cat t q pm cr ar pr m m' hm hm'

theorem smComplete_max_invariant (cat : TechCatalog)
    (avail : List String → List String) (prodOf : List String → ℚ)
    (techId : String) (q : List String) (pm : List (String × ℚ))
    (cr : List String) (ar : Bool) (pr : ℚ) (m m' : ℕ)
    (hm : q.length < effSlots m) (hm' : q.length < effSlots m') :
    smCompleteResearch cat avail prodOf ⟨q, pm, cr, m, ar, pr⟩ techId =
      { smCompleteResearch cat avail prodOf ⟨q, pm, cr, m', ar, pr⟩ techId with
          maxResearchSlots := m } := by
  rw [smCompleteResearch, smCompleteResearch]
  by_cases h : techId ∈ cr
  · simp [h]
  · simp only [h, if_false]
    exact tryAuto_max_invariant cat avail q pm (cr ++ [techId]) ar
      (prodOf (cr ++ [techId])) m m' hm hm'

theorem addSlotsIter_eq (s : RState) (n : ℕ) (h : s.maxResearchSlots ≠ 0) :
    addSlotsIter s n = { s with maxResearchSlots := s.maxResearchSlots + n } := by
  induction n generalizing s with
  | zero => simp [addSlotsIter]
  | succ k ih =>
    rw [addSlotsIter, addResearchSlot, effSlots, if_neg h,
      ih _ (by simp)]
    simp only
    congr 1
    omega

/-- Claim C2.  When a technology carrying a `researchSlots` effect of
`n` completes, `maxResearchSlots` grows by exactly `n` within the
completion itself (`startResearch` never touches it, so not before); and
completion-with-grant is state-equal to the spec's reading in which the
new slots are already in place for the auto-research attempt the
completion triggers — given that the completed tech occupied a queue slot
(the invariant of the tick-driven flow), that attempt behaves identically
with the old or the new slot count, so the new slots are effectively
available to the very next `startResearch` call, same-tick auto-research
included. -/
theorem researchSlots_grant (cat : TechCatalog)
    (avail : List String → List String) (prodOf : List String → ℚ)
    (s : RState) (techId : String) (td : TechDef)
    (hcat : cat techId = some td) (hq : techId ∈ s.researchQueue)
    (hlen : s.researchQueue.length ≤ effSlots s.maxResearchSlots)
    (hms : s.maxResearchSlots ≠ 0) :
    ((completeResearch cat avail prodOf s techId).maxResearchSlots =
      s.maxResearchSlots + td.researchSlots) ∧
    (∀ t, (startResearch cat s t).2.maxResearchSlots = s.maxResearchSlots) ∧
    (completeResearch cat avail prodOf s techId =
      completeResearchSpec cat avail prodOf s techId) := by
  obtain ⟨q, pm, cr, ms, ar, pr⟩ := s
  simp only at hq hlen hms
  have hq1 : 1 ≤ q.length := List.length_pos.mpr (List.ne_nil_of_mem hq)
  have herase : (q.erase techId).length = q.length - 1 :=
    List.length_erase_of_mem hq
  have heff : effSlots ms = ms := by rw [effSlots, if_neg hms]
  have hlen' : q.length ≤ ms := heff ▸ hlen
  have hbound1 : (q.erase techId).length < effSlots ms := by
    rw [herase, heff]
    omega
  have hbound2 : (q.erase techId).length < effSlots (ms + td.researchSlots) := by
    have heff2 : effSlots (ms + td.researchSlots) = ms + td.researchSlots := by
      rw [effSlots, if_neg (by omega)]
    rw [herase, heff2]
    omega
  have hA_max := smCompleteResearch_maxSlots cat avail prodOf
    ⟨q.erase techId, delEntry pm techId, cr, ms, ar, pr⟩ techId
  simp only at hA_max
  have hcode : completeResearch cat avail prodOf ⟨q, pm, cr, ms, ar, pr⟩ techId =
      { smCompleteResearch cat avail prodOf
          ⟨q.erase techId, delEntry pm techId, cr, ms, ar, pr⟩ techId with
        maxResearchSlots := ms + td.researchSlots } := by
    simp only [completeResearch, hcat]
    rw [addSlotsIter_eq _ _ (by rw [hA_max]; exact hms), hA_max]
  have hspec : completeResearchSpec cat avail prodOf ⟨q, pm, cr, ms, ar, pr⟩ techId =
      { smCompleteResearch cat avail prodOf
          ⟨q.erase techId, delEntry pm techId, cr, ms, ar, pr⟩ techId with
        maxResearchSlots := ms + td.researchSlots } := by
    simp only [completeResearchSpec, hcat]
    rw [addSlotsIter_eq _ _ (by simp only; exact hms)]
    simp only
    exact smComplete_max_invariant cat avail prodOf techId (q.erase techId)
      (delEntry pm techId) cr ar pr (ms + td.researchSlots) ms hbound2 hbound1
  refine ⟨by rw [hcode], ?_, by rw [hcode, hspec]⟩
  intro t
  exact startResearch_maxSlots cat ⟨q, pm, cr, ms, ar, pr⟩ t

/-- Claim C2, witness: completing a tech granting one extra slot from a
one-slot state raises `maxResearchSlots` to 2 and agrees with the
grant-before-event ordering. -/
theorem researchSlots_grant_witness :
    ((completeResearch (fun t => if t = "pr" then some ⟨10, [], 1⟩ else none)
        (fun _ => []) (fun _ => 1)
        ⟨["pr"], [("pr", 10)], [], 1, false, 1⟩ "pr").maxResearchSlots = 1 + 1) ∧
    (completeResearch (fun t => if t = "pr" then some ⟨10, [], 1⟩ else none)
        (fun _ => []) (fun _ => 1)
        ⟨["pr"], [("pr", 10)], [], 1, false, 1⟩ "pr" =
      completeResearchSpec (fun t => if t = "pr" then some ⟨10, [], 1⟩ else none)
        (fun _ => []) (fun _ => 1)
        ⟨["pr"], [("pr", 10)], [], 1, false, 1⟩ "pr") := by
  have h := researchSlots_grant
    (fun t => if t = "pr" then some ⟨10, [], 1⟩ else none)
    (fun _ => []) (fun _ => 1)
    ⟨["pr"], [("pr", 10)], [], 1, false, 1⟩ "pr" ⟨10, [], 1⟩
    (by decide) (by decide) (by decide) (by decide)
  exact ⟨h.1, h.2.2⟩

theorem lookupD_cons (e : String × ℚ) (rest : List (String × ℚ)) (t : String) :
    lookupD (e :: rest) t = if e.1 = t then e.2 else lookupD rest t := by
  by_cases h : e.1 = t <;> simp [lookupD, List.find?_cons, h]

theorem lookupD_setEntry_self (m : List (String × ℚ)) (t : String) (v : ℚ) :
    lookupD (setEntry m t v) t = v := by
  induction m with
  | nil => simp [setEntry, lookupD_cons]
  | cons e rest ih =>
    by_cases h : e.1 = t
    · simp [setEntry, h, lookupD_cons]
    · simp [setEntry, h, lookupD_cons, ih]

theorem lookupD_setEntry_ne (m : List (String × ℚ)) (t t' : String) (v : ℚ)
    (h : t ≠ t') : lookupD (setEntry m t v) t' = lookupD m t' := by
  induction m with
  | nil => simp [setEntry, lookupD_cons, h, lookupD]
  | cons e rest ih =>
    by_cases he : e.1 = t
    · rw [setEntry, if_pos he, lookupD_cons, lookupD_cons, he, if_neg h, if_neg h]
    · rw [setEntry, if_neg he, lookupD_cons, lookupD_cons, ih]

theorem accrueLoop_fst_not_mem (cat : TechCatalog) (perDt : ℚ) (q : List String)
    (m : List (String × ℚ)) (t : String) (ht : t ∉ q) :
    lookupD (accrueLoop cat perDt q m).1 t = lookupD m t := by
  induction q generalizing m with
  | nil => rfl
  | cons f rest ih =>
    have hne : t ≠ f := fun h => ht (h ▸ List.mem_cons_self f rest)
    have hrest : t ∉ rest := fun h => ht (List.mem_cons_of_mem f h)
    cases hc : cat f with
    | none =>
      simp only [accrueLoop, hc]
      exact ih m hrest
    | some td =>
      simp only [accrueLoop, hc]
      rw [ih _ hrest, lookupD_setEntry_ne _ _ _ _ (Ne.symm hne)]

theorem accrueLoop_snd_subset (cat : TechCatalog) (perDt : ℚ) (q : List String)
    (m : List (String × ℚ)) (x : String) (hx : x ∈ (accrueLoop cat perDt q m).2) :
    x ∈ q := by
  induction q generalizing m with
  | nil => cases hx
  | cons f rest ih =>
    cases hc : cat f with
    | none =>
      simp only [accrueLoop, hc] at hx
      exact List.mem_cons_of_mem f (ih m hx)
    | some td =>
      simp only [accrueLoop, hc] at hx
      by_cases hcost : td.cost ≤ lookupD m f + perDt
      · rw [if_pos hcost] at hx
        rcases List.mem_cons.mp hx with h | h
        · exact h ▸ List.mem_cons_self f rest
        · exact List.mem_cons_of_mem f (ih _ h)
      · rw [if_neg hcost] at hx
        exact List.mem_cons_of_mem f (ih _ hx)

theorem accrueLoop_spec (cat : TechCatalog) (perDt : ℚ) (q : List String)
    (m : List (String × ℚ)) (t : String) (td : TechDef) (hnd : q.Nodup)
    (ht : t ∈ q) (hcat : cat t = some td) :
    lookupD (accrueLoop cat perDt q m).1 t = lookupD m t + perDt ∧
    (t ∈ (accrueLoop cat perDt q m).2 ↔ td.cost ≤ lookupD m t + perDt) := by
  induction q generalizing m with
  | nil => cases ht
  | cons f rest ih =>
    rw [List.nodup_cons] at hnd
    rcases List.mem_cons.mp ht with heq | hmem
    · subst heq
      rw [accrueLoop, hcat]
      simp only
      constructor
      · rw [accrueLoop_fst_not_mem cat perDt rest _ t hnd.1, lookupD_setEntry_self]
      · have hnot : t ∉ (accrueLoop cat perDt rest (setEntry m t (lookupD m t + perDt))).2 :=
          fun h => hnd.1 (accrueLoop_snd_subset cat perDt rest _ t h)
        by_cases hcost : td.cost ≤ lookupD m t + perDt
        · simp [if_pos hcost, hcost]
        · simp [if_neg hcost, hcost, hnot]
    · have hne : f ≠ t := fun h => hnd.1 (h ▸ hmem)
      cases hc : cat f with
      | none =>
        simp only [accrueLoop, hc]
        exact ih m hnd.2 hmem
      | some tdf =>
        simp only [accrueLoop, hc]
        obtain ⟨ih1, ih2⟩ := ih (setEntry m f (lookupD m f + perDt)) hnd.2 hmem
        rw [lookupD_setEntry_ne _ _ _ _ hne] at ih1 ih2
        refine ⟨ih1, ?_⟩
        by_cases hcost : tdf.cost ≤ lookupD m f + perDt
        · rw [if_pos hcost]
          constructor
          · intro h
            rcases List.mem_cons.mp h with h | h
            · exact absurd h.symm hne
            · exact ih2.mp h
          · intro h
            exact List.mem_cons_of_mem f (ih2.mpr h)
        · rw [if_neg hcost]
          exact ih2

/-- The static tech pair of end-to-end scenario C: costs 20 and 30, no
slot effects. -/
def scenarioCat : TechCatalog := fun t =>
  if t = "ta" then some ⟨20, [], 0⟩ else if t = "tb" then some ⟨30, [], 0⟩ else none

/-- One 1-second research tick of scenario C: total research rate 10/s
held constant, no further techs available, auto-research off. -/
def scenarioStep (s : RState) : RState :=
  progUpdate scenarioCat (fun _ => []) (fun _ => 10) 1 s

/-- Scenario C's starting state: both techs queued with zero progress,
two slots. -/
def scenarioS0 : RState := ⟨["ta", "tb"], [("ta", 0), ("tb", 0)], [], 2, false, 10⟩

/-- Claim C3.  On a research-advancing tick with a non-empty queue and a
positive total rate, every queued (catalogued) technology accrues exactly
`totalRate / queueLength * deltaTime` progress, reaching completion
exactly when that share lifts it to its cost; the tick is the accrual
pass followed by completing the finished items; and in end-to-end
scenario C (techs of cost 20 and 30 at rate 10/s, 1 s ticks), both accrue
5/s — 10 each after 2 s —, the first completes at tick 4 at progress 20,
after which the second receives the full 10/s and completes at tick 5
(sooner than the naive fixed-5/s projection of 6 s). -/
theorem research_rate_division (cat : TechCatalog)
    (avail : List String → List String) (prodOf : List String → ℚ) (dt : ℚ)
    (s : RState) (t : String) (td : TechDef) (hnd : s.researchQueue.Nodup)
    (ht : t ∈ s.researchQueue) (hcat : cat t = some td)
    (hq : s.researchQueue.length ≠ 0) (hrate : 0 < s.productionResearch) :
    (lookupD (accrueLoop cat
          (s.productionResearch / (s.researchQueue.length : ℚ) * dt)
          s.researchQueue s.progressMap).1 t =
        lookupD s.progressMap t +
          s.productionResearch / (s.researchQueue.length : ℚ) * dt) ∧
    (t ∈ (accrueLoop cat
          (s.productionResearch / (s.researchQueue.length : ℚ) * dt)
          s.researchQueue s.progressMap).2 ↔
        td.cost ≤ lookupD s.progressMap t +
          s.productionResearch / (s.researchQueue.length : ℚ) * dt) ∧
    (progressAllResearch cat avail prodOf dt s =
      (accrueLoop cat (s.productionResearch / (s.researchQueue.length : ℚ) * dt)
          s.researchQueue s.progressMap).2.foldl
        (completeResearch cat avail prodOf)
        { s with progressMap :=
            (accrueLoop cat
              (s.productionResearch / (s.researchQueue.length : ℚ) * dt)
              s.researchQueue s.progressMap).1 }) ∧
    ((scenarioStep (scenarioStep scenarioS0)).progressMap =
      [("ta", 10), ("tb", 10)]) ∧
    (scenarioStep (scenarioStep (scenarioStep (scenarioStep scenarioS0))) =
      ⟨["tb"], [("tb", 20)], ["ta"], 2, false, 10⟩) ∧
    (scenarioStep (scenarioStep (scenarioStep (scenarioStep
        (scenarioStep scenarioS0)))) =
      ⟨[], [], ["ta", "tb"], 2, false, 10⟩) := by
  obtain ⟨hacc1, hacc2⟩ := accrueLoop_spec cat
    (s.productionResearch / (s.researchQueue.length : ℚ) * dt)
    s.researchQueue s.progressMap t td hnd ht hcat
  have hstep1 : scenarioStep scenarioS0 =
      ⟨["ta", "tb"], [("ta", 5), ("tb", 5)], [], 2, false, 10⟩ := by
    norm_num +decide [scenarioStep, scenarioS0, progUpdate, progressAllResearch,
      accrueLoop, completeResearch, smCompleteResearch, tryAutoResearch,
      startResearch, addSlotsIter, addResearchSlot, lookupD, setEntry, delEntry,
      effSlots, scenarioCat, List.find?]
  have hstep2 : scenarioStep ⟨["ta", "tb"], [("ta", 5), ("tb", 5)], [], 2, false, 10⟩ =
      ⟨["ta", "tb"], [("ta", 10), ("tb", 10)], [], 2, false, 10⟩ := by
    norm_num +decide [scenarioStep, progUpdate, progressAllResearch,
      accrueLoop, completeResearch, smCompleteResearch, tryAutoResearch,
      startResearch, addSlotsIter, addResearchSlot, lookupD, setEntry, delEntry,
      effSlots, scenarioCat, List.find?]
  have hstep3 : scenarioStep ⟨["ta", "tb"], [("ta", 10), ("tb", 10)], [], 2, false, 10⟩ =
      ⟨["ta", "tb"], [("ta", 15), ("tb", 15)], [], 2, false, 10⟩ := by
    norm_num +decide [scenarioStep, progUpdate, progressAllResearch,
      accrueLoop, completeResearch, smCompleteResearch, tryAutoResearch,
      startResearch, addSlotsIter, addResearchSlot, lookupD, setEntry, delEntry,
      effSlots, scenarioCat, List.find?]
  have hstep4 : scenarioStep ⟨["ta", "tb"], [("ta", 15), ("tb", 15)], [], 2, false, 10⟩ =
      ⟨["tb"], [("tb", 20)], ["ta"], 2, false, 10⟩ := by
    norm_num +decide [scenarioStep, progUpdate, progressAllResearch,
      accrueLoop, completeResearch, smCompleteResearch, tryAutoResearch,
      startResearch, addSlotsIter, addResearchSlot, lookupD, setEntry, delEntry,
      effSlots, scenarioCat, List.find?, List.erase, List.filter]
  have hstep5 : scenarioStep ⟨["tb"], [("tb", 20)], ["ta"], 2, false, 10⟩ =
      ⟨[], [], ["ta", "tb"], 2, false, 10⟩ := by
    norm_num +decide [scenarioStep, progUpdate, progressAllResearch,
      accrueLoop, completeResearch, smCompleteResearch, tryAutoResearch,
      startResearch, addSlotsIter, addResearchSlot, lookupD, setEntry, delEntry,
      effSlots, scenarioCat, List.find?, List.erase, List.filter]
  refine ⟨hacc1, hacc2, ?_, ?_, ?_, ?_⟩
  · rw [progressAllResearch, if_neg hq, if_neg (not_le.mpr hrate)]
  · rw [hstep1, hstep2]
  · rw [hstep1, hstep2, hstep3, hstep4]
  · rw [hstep1, hstep2, hstep3, hstep4, hstep5]

/-- Claim C3, witness: in scenario C's first tick, tech `ta` (cost 20)
accrues exactly `10 / 2 * 1 = 5` progress and does not yet complete. -/
theorem research_rate_division_witness :
    lookupD (accrueLoop scenarioCat
        (scenarioS0.productionResearch / (scenarioS0.researchQueue.length : ℚ) * 1)
        scenarioS0.researchQueue scenarioS0.progressMap).1 "ta" =
      lookupD scenarioS0.progressMap "ta" +
        scenarioS0.productionResearch / (scenarioS0.researchQueue.length : ℚ) * 1 :=
  (research_rate_division scenarioCat (fun _ => []) (fun _ => 10) 1 scenarioS0
    "ta" ⟨20, [], 0⟩ (by decide) (by decide) (by rfl) (by decide)
    (by norm_num [scenarioS0])).1
